import Mathlib

/-!
Shallow embedding of `src/rust/src/language.rs` (instruction-discovery
engine over an e-graph) together with proofs of the specification claims.

Eclass identifiers are modelled as natural numbers.  An e-graph is a list
of eclasses indexed by id; each eclass carries its list of enodes and its
analysis payload.  Fallible Rust code (panics, `assert!`, `unwrap`,
`todo!`) is modelled with `Except String`.
-/

namespace Lakeroad

/-- Eclass identifiers (`egg::Id`). -/
abbrev EId := Nat

/-- The operator enum `Op` from the source. -/
inductive Op where
  | and
  | or
  | not
  | sub
  | xor
  | asr
deriving DecidableEq, Repr

/-- `Op`'s `Display` implementation. -/
def Op.toDisplay : Op → String
  | .and => "and"
  | .or => "or"
  | .not => "not"
  | .sub => "sub"
  | .xor => "xor"
  | .asr => "asr"

/-- `Op`'s `FromStr` implementation. -/
def Op.fromStr : String → Except String Op
  | "and" => .ok .and
  | "or" => .ok .or
  | "not" => .ok .not
  | "sub" => .ok .sub
  | "xor" => .ok .xor
  | "asr" => .ok .asr
  | _ => .error "unknown operator"

/-- Enodes of the `define_language!` enum `Language`.  Children are eclass
ids, mirroring the id-arrays of the Rust enum. -/
inductive ENode where
  | var (name bw : EId)
  | const (val bw : EId)
  | unop (op bw arg : EId)
  | binop (op bw a b : EId)
  | apply (instrId args : EId)
  | hole (bw : EId)
  | list (ids : List EId)
  | concat (a b : EId)
  | canonicalize (l : EId)
  | canonicalArgs (ids : List EId)
  | instr (ast cargs : EId)
  | op (o : Op)
  | num (v : Int)
  | str (s : String)
deriving DecidableEq, Repr

/-- The analysis payload `LanguageAnalysisData`.  The `Function` variant's
`HashMap<String, usize>` is modelled as an association list. -/
inductive Data where
  | func (args : List (String × Nat)) (ret : Nat)
  | signal (bw : Nat)
  | string (s : String)
  | num (v : Int)
  | op (o : Op)
  | list (ids : List EId)
  | instr (bw : Nat)
  | empty
deriving DecidableEq, Repr

/-- An eclass: its enodes together with its analysis data. -/
structure EClass where
  nodes : List ENode
  data : Data
deriving DecidableEq, Repr

/-- An e-graph, indexed by eclass id. -/
abbrev EGraph := List EClass

/-- The enodes of eclass `i`, or `none` when `i` is out of range (where the
Rust `egraph[i]` indexing would panic). -/
def nodesOf (g : EGraph) (i : EId) : Option (List ENode) :=
  (g.get? i).map EClass.nodes

/-- The analysis data of eclass `i`. -/
def dataOf (g : EGraph) (i : EId) : Option Data :=
  (g.get? i).map EClass.data

/-- Rust's `i64 as usize` cast (two's-complement wrap into `[0, 2^64)`). -/
def intToUsize (v : Int) : Nat :=
  (v % (2 ^ 64 : Int)).toNat

/-- `LanguageAnalysis::merge`: `assert_eq!(*a, b)` then
`DidMerge(false, false)`.  The result carries the (unchanged) payload of
`a` and the two `DidMerge` booleans; unequal payloads abort. -/
def mergeData (a b : Data) : Except String (Data × Bool × Bool) :=
  if a = b then .ok (a, false, false) else .error "assert_eq failed: merge of unequal payloads"

/-- `LanguageAnalysis::make`, with `d` giving the payload of each child
eclass.  Every Rust `panic!` / failed `assert!` becomes `.error`. -/
def makeData (d : EId → Option Data) (n : ENode) : Except String Data :=
  match n with
  | .instr astId cargsId =>
    match d astId, d cargsId with
    | some (.signal v), some .empty => .ok (.instr v)
    | _, _ => .error "panic: instr expects (Signal, Empty)"
  | .canonicalize listId =>
    match d listId with
    | some (.list _) => .ok .empty
    | _ => .error "panic: canonicalize expects List"
  | .canonicalArgs ids =>
    if ids.all (fun i => match d i with | some (.num _) => true | _ => false)
    then .ok .empty
    else .error "panic: canonical-args expects Num children"
  | .var _ bwId =>
    match d bwId with
    | some (.num v) =>
      if v > 0 then .ok (.signal (intToUsize v)) else .error "expect bitwidths to be positive"
    | _ => .error "panic: var expects Num bitwidth"
  | .const _ bwId =>
    match d bwId with
    | some (.num v) =>
      if v > 0 then .ok (.signal (intToUsize v)) else .error "expect bitwidths to be positive"
    | _ => .error "panic: const expects Num bitwidth"
  | .num v => .ok (.num v)
  | .str s => .ok (.string s)
  | .binop opId bwId aId bId =>
    match d opId, d bwId, d aId, d bId with
    | some (.op _), some (.num bw), some (.signal abw), some (.signal bbw) =>
      if abw = bbw then
        if abw = intToUsize bw then .ok (.signal (intToUsize bw))
        else .error "bitwidths must match"
      else .error "bitwidths must match"
    | _, _, _, _ => .error "types do not check; is this an op?"
  | .unop opId bwId argId =>
    match d opId, d bwId, d argId with
    | some (.op _), some (.num outBw), some (.signal argBw) =>
      if argBw = intToUsize outBw then .ok (.signal (intToUsize outBw))
      else .error "bitwidths must match"
    | _, _, _ => .error "types do not check; is this an op?"
  | .op o => .ok (.op o)
  | .hole bwId =>
    match d bwId with
    | some (.num v) => .ok (.signal (intToUsize v))
    | _ => .error "panic: hole expects Num bitwidth"
  | .list ids => .ok (.list ids)
  | .concat aId bId =>
    match d aId, d bId with
    | some (.list a), some (.list b) => .ok (.list (a ++ b))
    | _, _ => .error "panic: concat expects two Lists"
  | .apply instrId _ =>
    match d instrId with
    | some (.instr v) => .ok (.signal v)
    | _ => .error "panic: apply expects an instruction"

/-! ## The canonicalise applier

The applier of the `canonicalize` rewrite reads the `List(ids...)` payload
of the matched `?list` eclass, renumbers the ids by first occurrence, and
produces the integer vector of the `CanonicalArgs` node that it adds and
unions with the matched eclass. -/

/-- Association-list lookup, modelling `HashMap::get` for a map built by
inserting fresh keys only. -/
def alookup : List (EId × Nat) → EId → Option Nat
  | [], _ => none
  | (k, v) :: rest, x => if k = x then some v else alookup rest x

/-- The map-building loop of the applier: for each id, if it is not yet a
key, insert it with the counter `next` and increment `next`. -/
def buildMap : List EId → List (EId × Nat) → Nat → List (EId × Nat)
  | [], m, _ => m
  | x :: rest, m, next =>
    if (alookup m x).isSome then buildMap rest m next
    else buildMap rest (m ++ [(x, next)]) (next + 1)

/-- The integer vector computed by the `canonicalize` applier from the
`List` payload's id sequence (the values of the `Num` nodes that become
the children of the produced `CanonicalArgs`). -/
def canonicalizeIds (ids : List EId) : List Nat :=
  let m := buildMap ids [] 0
  ids.map (fun x => (alookup m x).getD 0)

/-- The `canonicalize` applier on the payload of the matched `?list`
eclass: panics unless the payload is a concrete `List`. -/
def canonicalizeApplier (listData : Data) : Except String (List Nat) :=
  match listData with
  | .list ids => .ok (canonicalizeIds ids)
  | _ => .error "panic: canonicalize applier expects List payload"

/-! ## Stand-alone terms

A `RecExpr<Language>` built by `add`ing nodes bottom-up is a tree; the
shallow embedding represents it directly as a tree. -/

/-- A stand-alone term (`RecExpr<Language>`): each child slot holds the
subterm rather than an eclass id. -/
inductive Term where
  | var (name bw : Term)
  | const (val bw : Term)
  | unop (op bw arg : Term)
  | binop (op bw a b : Term)
  | apply (instrT args : Term)
  | hole (bw : Term)
  | list (xs : List Term)
  | concat (a b : Term)
  | canonicalize (l : Term)
  | canonicalArgs (xs : List Term)
  | instr (ast cargs : Term)
  | op (o : Op)
  | num (v : Int)
  | str (s : String)

/-- Insert (overwriting) into the association list modelling the
`HashMap<String, usize>` of variable bitwidths. -/
def insertVar (m : List (String × Nat)) (k : String) (v : Nat) : List (String × Nat) :=
  match m with
  | [] => [(k, v)]
  | (k0, v0) :: rest =>
    if k0 = k then (k, v) :: rest else (k0, v0) :: insertVar rest k v

/-- `to_racket_helper`: translate a term to the oracle's surface syntax,
recording each variable's bitwidth.  `Num`/`String` at the root yield
`none`; `todo!()` and `panic!` arms are errors; `(*bw).try_into().unwrap()`
fails on a negative bitwidth. -/
def toRacketHelper : Term → List (String × Nat) → Except String (Option String × List (String × Nat))
  | .var name bw, m =>
    match name, bw with
    | .str v, .num bwv =>
      if 0 ≤ bwv then .ok (some v, insertVar m v bwv.toNat)
      else .error "unwrap: negative bitwidth"
    | _, _ => .error "panic: var expects String and Num children"
  | .const val bw, m =>
    match val, bw with
    | .num v, .num bwv => .ok (some ("(bv " ++ toString v ++ " " ++ toString bwv ++ ")"), m)
    | _, _ => .error "panic: const expects Num children"
  | .num _, m => .ok (none, m)
  | .str _, m => .ok (none, m)
  | .apply _ _, _ => .error "todo"
  | .binop opT _ a b, m =>
    match opT with
    | .op o =>
      match (match o with
             | .and => some "bvand"
             | .or => some "bvor"
             | .sub => some "bvsub"
             | .xor => some "bvxor"
             | .asr => some "bvashr"
             | .not => none) with
      | none => .error "panic: invalid binary operator"
      | some opStr => do
        let (ra, m1) ← toRacketHelper a m
        match ra with
        | none => .error "unwrap: subterm did not translate"
        | some sa => do
          let (rb, m2) ← toRacketHelper b m1
          match rb with
          | none => .error "unwrap: subterm did not translate"
          | some sb => .ok (some ("(" ++ opStr ++ " " ++ sa ++ " " ++ sb ++ ")"), m2)
    | _ => .error "panic: binop op child is not an Op"
  | .unop opT _ arg, m =>
    match opT with
    | .op o =>
      match (match o with | .not => some "bvnot" | _ => none) with
      | none => .error "panic: invalid unary operator"
      | some opStr => do
        let (ra, m1) ← toRacketHelper arg m
        match ra with
        | none => .error "unwrap: subterm did not translate"
        | some sa => .ok (some ("(" ++ opStr ++ " " ++ sa ++ ")"), m1)
    | _ => .error "panic: unop op child is not an Op"
  | .hole _, _ => .error "todo"
  | .list _, _ => .error "todo"
  | .concat _ _, _ => .error "todo"
  | .op _, _ => .error "todo"
  | .canonicalArgs _, _ => .error "panic"
  | .canonicalize _, _ => .error "panic"
  | .instr _ _, _ => .error "panic"

/-- `to_racket`: run the helper on an empty map. -/
def toRacket (t : Term) : Except String (Option String × List (String × Nat)) :=
  toRacketHelper t []

/-! ## Template extraction -/

/-- `extract_ast_helper`: walk the template depth-first left-to-right,
requiring each visited eclass to hold exactly one enode; at a `Hole`,
extract the bitwidth child, then assert the index list non-empty, pop its
head `i` and emit `Var("var" ++ i, bw)`.  Structured recursion on `fuel`;
the Rust recursion has no fuel, so every theorem below supplies enough. -/
def extractAstHelper (g : EGraph) : Nat → EId → List Nat → Except String (Term × List Nat)
  | 0, _, _ => .error "fuel exhausted"
  | fuel + 1, i, args =>
    match nodesOf g i with
    | none => .error "panic: eclass index out of bounds"
    | some nodes =>
      match nodes with
      | [n] =>
        match n with
        | .op o => .ok (.op o, args)
        | .binop opId bwId aId bId => do
          let (t1, a1) ← extractAstHelper g fuel opId args
          let (t2, a2) ← extractAstHelper g fuel bwId a1
          let (t3, a3) ← extractAstHelper g fuel aId a2
          let (t4, a4) ← extractAstHelper g fuel bId a3
          .ok (.binop t1 t2 t3 t4, a4)
        | .unop opId bwId argId => do
          let (t1, a1) ← extractAstHelper g fuel opId args
          let (t2, a2) ← extractAstHelper g fuel bwId a1
          let (t3, a3) ← extractAstHelper g fuel argId a2
          .ok (.unop t1 t2 t3, a3)
        | .hole bwId => do
          let (tbw, a1) ← extractAstHelper g fuel bwId args
          match a1 with
          | [] => .error "assertion failed: !args.is_empty()"
          | idx :: rest => .ok (.var (.str ("var" ++ toString idx)) tbw, rest)
        | .num v => .ok (.num v, args)
        | _ => .error "panic: unexpected node in template"
      | _ => .error "assertion failed: exactly one node in visited eclass"

/-- The `CanonicalArgs` children read by `extract_ast`: find the first
`CanonicalArgs` node of the `?canonical-args` eclass (`unwrap` if none),
then read each child's `Num` payload through `usize::try_from`. -/
def readCanonicalArgs (g : EGraph) (cargsId : EId) : Except String (List Nat) :=
  match nodesOf g cargsId with
  | none => .error "panic: eclass index out of bounds"
  | some nodes =>
    match nodes.findSome? (fun n => match n with | .canonicalArgs ids => some ids | _ => none) with
    | none => .error "unwrap: no CanonicalArgs node in eclass"
    | some ids =>
      ids.mapM (fun i =>
        match dataOf g i with
        | some (.num v) => if 0 ≤ v then .ok v.toNat else .error "unwrap: negative index"
        | _ => .error "panic: canonical-args child is not a Num")

/-- `extract_ast`: read the index list, then run the helper on the `?ast`
eclass. -/
def extractAst (g : EGraph) (fuel : Nat) (astId cargsId : EId) : Except String Term := do
  let args ← readCanonicalArgs g cargsId
  let (t, _) ← extractAstHelper g fuel astId args
  .ok t

/-- The substitutions the pattern `(instr ?ast ?canonical-args)` produces
in one eclass: one `(?ast, ?canonical-args)` pair per `Instr` enode. -/
def instrSubsts (c : EClass) : List (EId × EId) :=
  c.nodes.filterMap (fun n => match n with | .instr a ca => some (a, ca) | _ => none)

/-- The loop body of `find_isa_instructions` over the match list: for each
eclass the pattern matched (at least one `Instr` enode), assert that the
substitution is unique and that the eclass holds exactly one enode, then
extract. -/
def findIsaAux (g : EGraph) (fuel : Nat) : List (EId × EClass) → Except String (List (EId × Term))
  | [] => .ok []
  | (i, c) :: rest =>
    match instrSubsts c with
    | [] => findIsaAux g fuel rest
    | [(astId, cargsId)] =>
      if c.nodes.length = 1 then do
        let t ← extractAst g fuel astId cargsId
        let out ← findIsaAux g fuel rest
        .ok ((i, t) :: out)
      else .error "assertion failed: egraph[eclass].nodes.len() == 1"
    | _ :: _ :: _ => .error "assertion failed: search_match.substs.len() == 1"

/-- `find_isa_instructions`: run the loop over every eclass (the pattern
search visits each eclass containing an `Instr` enode). -/
def findIsaInstructions (g : EGraph) (fuel : Nat) : Except String (List (EId × Term)) :=
  findIsaAux g fuel g.enum

/-! ## Oracle driver -/

/-- Outcome of the interaction with the oracle subprocess: spawn may fail,
the write to its stdin may fail (broken pipe), waiting may fail, or the
process exits with a success flag. -/
inductive OracleOutcome where
  | spawnFailed
  | writeFailed
  | waitFailed
  | exited (success : Bool)
deriving DecidableEq, Repr

/-- `call_racket`'s process interaction: `spawn().ok().expect(...)`,
`write_all(...).unwrap()`, `wait_with_output().unwrap()` all panic on
failure; otherwise the verdict is `status.success()`. -/
def callRacket (o : OracleOutcome) : Except String Bool :=
  match o with
  | .spawnFailed => .error "Failed to spawn process"
  | .writeFailed => .error "unwrap: write_all failed"
  | .waitFailed => .error "unwrap: wait_with_output failed"
  | .exited s => .ok s

/-- `explore_new`: for each eclass, extract its best term and translate it
(`exprOf` abstracts `Extractor::find_best` plus `to_racket`); when the
translation is `none`, record `false` without calling the oracle;
otherwise the verdict comes from `call_racket`.  A panic in any task
aborts the whole parallel `collect`. -/
def exploreNew (classIds : List EId) (exprOf : EId → Option String)
    (oracle : EId → OracleOutcome) : Except String (List (EId × Bool)) :=
  match classIds with
  | [] => .ok []
  | i :: rest =>
    let task : Except String (EId × Bool) :=
      match exprOf i with
      | none => .ok (i, false)
      | some _ => (callRacket (oracle i)).map (fun b => (i, b))
    match task with
    | .error e => .error e
    | .ok v =>
      match exploreNew rest exprOf oracle with
      | .error e => .error e
      | .ok out => .ok (v :: out)

/-! ## Containment check -/

/-- The child-id list of an enode, as collected by the `match` in
`instr_appears_in_program`. -/
def enodeChildren : ENode → List EId
  | .const a b => [a, b]
  | .var a b => [a, b]
  | .instr a b => [a, b]
  | .concat a b => [a, b]
  | .apply a b => [a, b]
  | .unop a b c => [a, b, c]
  | .binop a b c d => [a, b, c, d]
  | .canonicalize a => [a]
  | .hole a => [a]
  | .canonicalArgs ids => ids
  | .list ids => ids
  | .op _ => []
  | .num _ => []
  | .str _ => []

/-- All child ids of all enodes of eclass `i` (empty when `i` is out of
range; the genuine traversal never reaches that case on a well-formed
graph). -/
def classChildren (g : EGraph) (i : EId) : List EId :=
  match nodesOf g i with
  | none => []
  | some nodes => nodes.flatMap enodeChildren

/-- The worklist loop of `instr_appears_in_program`.  Pops the head `this`
of the worklist, asserts it was not yet visited, returns `true` when it is
the instruction id, otherwise pushes all not-yet-visited children that are
not already queued.  Structured recursion on `fuel`. -/
def bfsAux (g : EGraph) (instrId : EId) : Nat → List EId → List EId → Except String Bool
  | 0, _, _ => .error "fuel exhausted"
  | _ + 1, [], _ => .ok false
  | fuel + 1, this :: rest, visited =>
    if this ∈ visited then .error "assertion failed: visited.insert(this)"
    else
      if this = instrId then .ok true
      else
        match nodesOf g this with
        | none => .error "panic: eclass index out of bounds"
        | some nodes =>
          let kids := ((nodes.flatMap enodeChildren).filter
            (fun x => x ∉ this :: visited ∧ x ∉ rest)).dedup
          bfsAux g instrId fuel (rest ++ kids) (this :: visited)

/-- `instr_appears_in_program`: run the worklist loop from the program
root with fuel `g.length + 1`, which the correctness theorem shows is
enough on a well-formed graph. -/
def instrAppearsInProgram (g : EGraph) (instrId programRoot : EId) : Except String Bool :=
  bfsAux g instrId (g.length + 1) [programRoot] []

/-- Reachability by following enode child edges, as described by the spec:
`i` appears in the DAG rooted at `r`. -/
inductive Reach (g : EGraph) (r : EId) : EId → Prop where
  | refl : Reach g r r
  | step {y z : EId} : Reach g r y → z ∈ classChildren g y → Reach g r z

/-- Well-formedness: every child id mentioned by any enode is in range. -/
def WF (g : EGraph) : Prop :=
  ∀ i, i < g.length → ∀ c ∈ classChildren g i, c < g.length

/-! ## Analysis of the canonicaliser

`posOf x s` is the index of the first occurrence of `x` in `s`;
`newSeen seen l` appends to `seen` the ids of `l` not seen before, in
first-occurrence order; `indexed s k` pairs each element of `s` with its
position starting at `k`.  The applier's map is exactly
`indexed (newSeen [] ids) 0`. -/

/-- Index of the first occurrence of `x` (0 when absent). -/
def posOf (x : EId) : List EId → Nat
  | [] => 0
  | y :: ys => if y = x then 0 else posOf x ys + 1

/-- Accumulate the previously-unseen ids of `l` onto `seen`, in
first-occurrence order. -/
def newSeen (seen : List EId) : List EId → List EId
  | [] => seen
  | x :: rest => if x ∈ seen then newSeen seen rest else newSeen (seen ++ [x]) rest

/-- Pair each element with its position, starting at `k`. -/
def indexed : List EId → Nat → List (EId × Nat)
  | [], _ => []
  | x :: xs, k => (x, k) :: indexed xs (k + 1)

lemma posOf_append_left (x : EId) (s t : List EId) (hx : x ∈ s) :
    posOf x (s ++ t) = posOf x s := by
  induction s with
  | nil => cases hx
  | cons y ys ih =>
    rw [List.cons_append]
    by_cases h : y = x
    · simp [posOf, h]
    · simp only [posOf, if_neg h]
      rcases List.mem_cons.mp hx with h2 | h2
      · exact absurd h2.symm h
      · rw [ih h2]

lemma posOf_append_cons (x : EId) (s t : List EId) (hx : x ∉ s) :
    posOf x (s ++ x :: t) = s.length := by
  induction s with
  | nil => simp [posOf]
  | cons y ys ih =>
    have hy : y ≠ x := by
      intro h
      exact hx (h ▸ List.mem_cons_self y ys)
    have hx2 : x ∉ ys := fun h => hx (List.mem_cons_of_mem y h)
    rw [List.cons_append]
    simp only [posOf, if_neg hy, List.length_cons]
    rw [ih hx2]

lemma posOf_lt_length (x : EId) (s : List EId) (hx : x ∈ s) :
    posOf x s < s.length := by
  induction s with
  | nil => cases hx
  | cons y ys ih =>
    simp only [posOf, List.length_cons]
    by_cases h : y = x
    · simp [h]
    · rw [if_neg h]
      rcases List.mem_cons.mp hx with h2 | h2
      · exact absurd h2.symm h
      · exact Nat.succ_lt_succ (ih h2)

lemma get_posOf (x : EId) (s : List EId) (hx : x ∈ s) :
    s.get ⟨posOf x s, posOf_lt_length x s hx⟩ = x := by
  induction s with
  | nil => cases hx
  | cons y ys ih =>
    by_cases h : y = x
    · simp [posOf, h]
    · rcases List.mem_cons.mp hx with h2 | h2
      · exact absurd h2.symm h
      · simpa [posOf, if_neg h] using ih h2

lemma posOf_get (s : List EId) (hs : s.Nodup) : ∀ (i : Nat) (h : i < s.length),
    posOf (s.get ⟨i, h⟩) s = i := by
  induction s with
  | nil => intro i h; cases h
  | cons y ys ih =>
    intro i h
    match i with
    | 0 => simp [posOf]
    | j + 1 =>
      have hj : j < ys.length := Nat.lt_of_succ_lt_succ h
      have hget : (y :: ys).get ⟨j + 1, h⟩ = ys.get ⟨j, hj⟩ := rfl
      rw [hget]
      have hmem : ys.get ⟨j, hj⟩ ∈ ys := List.get_mem ys j hj
      have hy : y ≠ ys.get ⟨j, hj⟩ := by
        intro hcontr
        exact (List.nodup_cons.mp hs).1 (hcontr ▸ hmem)
      simp only [posOf, if_neg hy]
      rw [ih (List.nodup_cons.mp hs).2 j hj]

lemma posOf_injOn (ns : List EId) (a b : EId) (ha : a ∈ ns) (hb : b ∈ ns)
    (h : posOf a ns = posOf b ns) : a = b := by
  have h1 := get_posOf a ns ha
  have h2 := get_posOf b ns hb
  rw [← h1, ← h2]
  congr 1
  exact Fin.ext h

lemma mem_newSeen (x : EId) : ∀ (l seen : List EId),
    x ∈ newSeen seen l ↔ x ∈ seen ∨ x ∈ l := by
  intro l
  induction l with
  | nil => simp [newSeen]
  | cons y rest ih =>
    intro seen
    simp only [newSeen]
    by_cases hy : y ∈ seen
    · rw [if_pos hy, ih seen]
      constructor
      · rintro (h | h)
        · exact Or.inl h
        · exact Or.inr (List.mem_cons_of_mem y h)
      · rintro (h | h)
        · exact Or.inl h
        · rcases List.mem_cons.mp h with h2 | h2
          · exact Or.inl (h2 ▸ hy)
          · exact Or.inr h2
    · rw [if_neg hy, ih (seen ++ [y])]
      simp only [List.mem_append, List.mem_singleton, List.mem_cons]
      tauto

lemma newSeen_append (seen l₁ l₂ : List EId) :
    newSeen seen (l₁ ++ l₂) = newSeen (newSeen seen l₁) l₂ := by
  induction l₁ generalizing seen with
  | nil => simp [newSeen]
  | cons x rest ih =>
    rw [List.cons_append]
    simp only [newSeen]
    by_cases hx : x ∈ seen
    · rw [if_pos hx, if_pos hx, ih]
    · rw [if_neg hx, if_neg hx, ih]

lemma newSeen_prefix (l : List EId) : ∀ seen, ∃ t, newSeen seen l = seen ++ t := by
  induction l with
  | nil => intro seen; exact ⟨[], by simp [newSeen]⟩
  | cons x rest ih =>
    intro seen
    simp only [newSeen]
    by_cases hx : x ∈ seen
    · rw [if_pos hx]; exact ih seen
    · rw [if_neg hx]
      obtain ⟨t, ht⟩ := ih (seen ++ [x])
      exact ⟨x :: t, by simpa using ht⟩

lemma nodup_newSeen (l : List EId) : ∀ seen, seen.Nodup → (newSeen seen l).Nodup := by
  induction l with
  | nil => intro seen h; simpa [newSeen] using h
  | cons x rest ih =>
    intro seen h
    simp only [newSeen]
    by_cases hx : x ∈ seen
    · rw [if_pos hx]; exact ih seen h
    · rw [if_neg hx]
      refine ih (seen ++ [x]) ?_
      simp [List.nodup_append, h, hx]

lemma indexed_append_single (s : List EId) (x : EId) : ∀ k,
    indexed (s ++ [x]) k = indexed s k ++ [(x, k + s.length)] := by
  induction s with
  | nil => intro k; simp [indexed]
  | cons y ys ih =>
    intro k
    rw [List.cons_append, List.length_cons]
    simp only [indexed]
    rw [ih (k + 1), List.cons_append]
    have harith : k + 1 + ys.length = k + (ys.length + 1) := by omega
    rw [harith]

lemma alookup_indexed (s : List EId) (x : EId) : ∀ k,
    alookup (indexed s k) x = if x ∈ s then some (k + posOf x s) else none := by
  induction s with
  | nil => intro k; simp [indexed, alookup]
  | cons y ys ih =>
    intro k
    simp only [indexed, alookup]
    by_cases h : y = x
    · subst h
      simp [posOf]
    · rw [if_neg h, ih (k + 1)]
      by_cases h2 : x ∈ ys
      · have : x ∈ y :: ys := List.mem_cons_of_mem y h2
        rw [if_pos h2, if_pos this]
        simp only [posOf, if_neg h]
        congr 1
        omega
      · have : x ∉ y :: ys := by
          intro hc
          rcases List.mem_cons.mp hc with hc2 | hc2
          · exact h hc2.symm
          · exact h2 hc2
        rw [if_neg h2, if_neg this]

lemma buildMap_indexed (l : List EId) : ∀ (seen : List EId) (k : Nat),
    buildMap l (indexed seen k) (k + seen.length) = indexed (newSeen seen l) k := by
  induction l with
  | nil => intro seen k; simp [buildMap, newSeen]
  | cons x rest ih =>
    intro seen k
    simp only [buildMap, newSeen, alookup_indexed]
    by_cases hx : x ∈ seen
    · simp only [if_pos hx, Option.isSome_some, if_true]
      exact ih seen k
    · simp only [if_neg hx, Option.isSome_none, Bool.false_eq_true, if_false]
      rw [← indexed_append_single]
      have hlen : k + seen.length + 1 = k + (seen ++ [x]).length := by
        rw [List.length_append, List.length_singleton]
        omega
      rw [hlen]
      exact ih (seen ++ [x]) k

lemma canonicalizeIds_eq_map (ids : List EId) :
    canonicalizeIds ids = ids.map (fun x => posOf x (newSeen [] ids)) := by
  unfold canonicalizeIds
  have h0 : buildMap ids [] 0 = indexed (newSeen [] ids) 0 := by
    have := buildMap_indexed ids [] 0
    simpa [indexed] using this
  rw [h0]
  apply List.map_congr_left
  intro x hx
  rw [alookup_indexed]
  have : x ∈ newSeen [] ids := (mem_newSeen x ids []).mpr (Or.inr hx)
  simp [this]

lemma length_newSeen_eq_dedup (l : List EId) :
    (newSeen [] l).length = l.dedup.length := by
  have h1 : (newSeen [] l).Nodup := nodup_newSeen l [] List.nodup_nil
  have h2 : l.dedup.Nodup := l.nodup_dedup
  have h3 : ∀ x, x ∈ newSeen [] l ↔ x ∈ l.dedup := by
    intro x
    rw [List.mem_dedup, mem_newSeen]
    simp
  exact List.Perm.length_eq ((List.perm_ext_iff_of_nodup h1 h2).mpr h3)

lemma newSeen_map (f : EId → EId) : ∀ (l seen : List EId),
    (∀ a b, (a ∈ seen ∨ a ∈ l) → (b ∈ seen ∨ b ∈ l) → f a = f b → a = b) →
    newSeen (seen.map f) (l.map f) = (newSeen seen l).map f := by
  intro l
  induction l with
  | nil => intro seen _; simp [newSeen]
  | cons x rest ih =>
    intro seen hinj
    rw [List.map_cons]
    simp only [newSeen]
    by_cases hx : x ∈ seen
    · have hfx : f x ∈ seen.map f := List.mem_map_of_mem f hx
      rw [if_pos hfx, if_pos hx]
      refine ih seen ?_
      intro a b ha hb hfab
      exact hinj a b (ha.imp id (List.mem_cons_of_mem x)) (hb.imp id (List.mem_cons_of_mem x)) hfab
    · have hfx : f x ∉ seen.map f := by
        intro hmem
        obtain ⟨a, ha, hfa⟩ := List.mem_map.mp hmem
        have : a = x := hinj a x (Or.inl ha) (Or.inr (List.mem_cons_self x rest)) hfa
        exact hx (this ▸ ha)
      rw [if_neg hfx, if_neg hx]
      have hmapappend : seen.map f ++ [f x] = (seen ++ [x]).map f := by simp
      rw [hmapappend]
      refine ih (seen ++ [x]) ?_
      intro a b ha hb hfab
      refine hinj a b ?_ ?_ hfab
      · rcases ha with ha | ha
        · rcases List.mem_append.mp ha with h2 | h2
          · exact Or.inl h2
          · exact Or.inr (List.mem_singleton.mp h2 ▸ List.mem_cons_self x rest)
        · exact Or.inr (List.mem_cons_of_mem x ha)
      · rcases hb with hb | hb
        · rcases List.mem_append.mp hb with h2 | h2
          · exact Or.inl h2
          · exact Or.inr (List.mem_singleton.mp h2 ▸ List.mem_cons_self x rest)
        · exact Or.inr (List.mem_cons_of_mem x hb)

lemma posOf_getElem (s : List EId) (hs : s.Nodup) (i : Nat) (h : i < s.length) :
    posOf s[i] s = i := by
  have h2 := posOf_get s hs i h
  simpa using h2

lemma getD_map_lt (f : EId → Nat) (l : List EId) (j : Nat) (h : j < l.length) :
    (l.map f).getD j 0 = f (l.getD j 0) := by
  rw [List.getD_eq_getElem _ _ (by simpa using h), List.getD_eq_getElem _ _ h, List.getElem_map]

lemma map_posOf_self (ns : List EId) (h : ns.Nodup) :
    ns.map (fun x => posOf x ns) = List.range ns.length := by
  apply List.ext_getElem
  · simp
  · intro i h1 h2
    rw [List.getElem_map, List.getElem_range]
    have hi : i < ns.length := by simpa using h1
    exact posOf_getElem ns h i hi

lemma posOf_range (k n : Nat) (h : k < n) : posOf k (List.range n) = k := by
  have h2 : k < (List.range n).length := by simpa using h
  have h4 := posOf_getElem (List.range n) (List.nodup_range n) k h2
  simpa using h4

/-- C1: the `canonicalize` applier, on a matched eclass whose `?list`
child has a concrete `List(ids...)` payload, produces a `CanonicalArgs`
vector of the same length by first-occurrence renumbering: each
previously-unseen id gets the next integer starting at 0 (the number of
distinct ids seen strictly before it), every repeat reuses its earlier
number, and the id sequence `[1, 3, 2, 3]` yields `[0, 1, 2, 1]`. -/
theorem canonicalize_applier_first_occurrence :
    (∀ ids : List EId, (canonicalizeIds ids).length = ids.length) ∧
    (∀ (ids : List EId) (j : Nat), j < ids.length →
      ids.getD j 0 ∉ ids.take j →
      (canonicalizeIds ids).getD j 0 = (ids.take j).dedup.length) ∧
    (∀ (ids : List EId) (j k : Nat), k < j → j < ids.length →
      ids.getD k 0 = ids.getD j 0 →
      (canonicalizeIds ids).getD j 0 = (canonicalizeIds ids).getD k 0) ∧
    canonicalizeApplier (.list [1, 3, 2, 3]) = .ok [0, 1, 2, 1] := by
  have hlen : ∀ ids : List EId, (canonicalizeIds ids).length = ids.length := by
    intro ids
    rw [canonicalizeIds_eq_map, List.length_map]
  refine ⟨hlen, ?_, ?_, rfl⟩
  · intro ids j hj hfresh
    rw [canonicalizeIds_eq_map, getD_map_lt _ _ _ hj]
    rw [List.getD_eq_getElem _ _ hj] at hfresh ⊢
    have hsplit : ids.take j ++ ids.drop j = ids := List.take_append_drop j ids
    have hdrop : ids.drop j = ids[j] :: ids.drop (j + 1) := List.drop_eq_getElem_cons hj
    have hns : newSeen [] ids = newSeen (newSeen [] (ids.take j)) (ids[j] :: ids.drop (j + 1)) := by
      conv_lhs => rw [← hsplit, hdrop]
      rw [newSeen_append]
    have hxs : ids[j] ∉ newSeen [] (ids.take j) := by
      intro hmem
      rcases (mem_newSeen _ _ _).mp hmem with h | h
      · cases h
      · exact hfresh h
    have hstep : newSeen (newSeen [] (ids.take j)) (ids[j] :: ids.drop (j + 1))
        = newSeen (newSeen [] (ids.take j) ++ [ids[j]]) (ids.drop (j + 1)) := by
      simp only [newSeen, if_neg hxs]
    obtain ⟨t, ht⟩ := newSeen_prefix (ids.drop (j + 1)) (newSeen [] (ids.take j) ++ [ids[j]])
    rw [hns, hstep, ht, List.append_assoc, List.singleton_append]
    rw [posOf_append_cons _ _ _ hxs]
    exact length_newSeen_eq_dedup (ids.take j)
  · intro ids j k hkj hj heq
    have hk : k < ids.length := Nat.lt_trans hkj hj
    rw [canonicalizeIds_eq_map, getD_map_lt _ _ _ hj, getD_map_lt _ _ _ hk, ← heq]

/-- Witness for C1 at the concrete list `[1, 3, 2, 3]`: position 1 holds a
fresh id and gets value 1; position 3 repeats the id at position 1. -/
theorem canonicalize_applier_first_occurrence_witness :
    (canonicalizeIds [1, 3, 2, 3]).getD 1 0 = (([1, 3, 2, 3] : List EId).take 1).dedup.length ∧
    (canonicalizeIds [1, 3, 2, 3]).getD 3 0 = (canonicalizeIds [1, 3, 2, 3]).getD 1 0 :=
  ⟨canonicalize_applier_first_occurrence.2.1 [1, 3, 2, 3] 1 (by decide) (by decide),
   canonicalize_applier_first_occurrence.2.2.1 [1, 3, 2, 3] 3 1 (by decide) (by decide) (by decide)⟩

/-- C9: canonicalisation is idempotent.  The applier's output is a pure
function of the id sequence (re-running the rule on an unchanged list
recomputes the identical `CanonicalArgs` children, so the hash-consed add
and the union are no-ops), and renumbering an already canonical sequence
returns it unchanged. -/
theorem canonicalize_idempotent (ids : List EId) :
    canonicalizeIds (canonicalizeIds ids) = canonicalizeIds ids := by
  have hnodup : (newSeen [] ids).Nodup := nodup_newSeen ids [] List.nodup_nil
  have hinj : ∀ a b, (a ∈ ([] : List EId) ∨ a ∈ ids) → (b ∈ ([] : List EId) ∨ b ∈ ids) →
      posOf a (newSeen [] ids) = posOf b (newSeen [] ids) → a = b := by
    intro a b ha hb hfab
    exact posOf_injOn _ a b ((mem_newSeen a ids []).mpr ha) ((mem_newSeen b ids []).mpr hb) hfab
  have hns2 : newSeen [] (ids.map (fun x => posOf x (newSeen [] ids)))
      = (newSeen [] ids).map (fun x => posOf x (newSeen [] ids)) := by
    simpa using newSeen_map (fun x => posOf x (newSeen [] ids)) ids [] hinj
  conv_lhs => rw [canonicalizeIds_eq_map ids]
  rw [canonicalizeIds_eq_map (ids.map (fun x => posOf x (newSeen [] ids)))]
  rw [hns2, map_posOf_self _ hnodup, List.map_map]
  conv_rhs => rw [canonicalizeIds_eq_map ids]
  apply List.map_congr_left
  intro x hx
  simp only [Function.comp_apply]
  exact posOf_range _ _ (posOf_lt_length x _ ((mem_newSeen x ids []).mpr (Or.inr hx)))

/-- C2: the analysis merge succeeds (returning no-change on both sides) if
and only if the two payloads are structurally equal; unequal payloads
abort. -/
theorem merge_requires_equal_payloads :
    (∀ a b : Data, (∃ r, mergeData a b = .ok r) ↔ a = b) ∧
    (∀ a : Data, mergeData a a = .ok (a, false, false)) ∧
    (∀ a b : Data, a ≠ b →
      mergeData a b = .error "assert_eq failed: merge of unequal payloads") := by
  refine ⟨?_, ?_, ?_⟩
  · intro a b
    constructor
    · rintro ⟨r, hr⟩
      by_contra hne
      simp [mergeData, hne] at hr
    · rintro rfl
      exact ⟨(a, false, false), by simp [mergeData]⟩
  · intro a
    simp [mergeData]
  · intro a b h
    simp [mergeData, h]

/-- Witness for C2: merging equal payloads succeeds with no change;
merging `Signal(8)` with `Signal(4)` aborts. -/
theorem merge_requires_equal_payloads_witness :
    mergeData (.signal 8) (.signal 8) = .ok (.signal 8, false, false) ∧
    mergeData (.signal 8) (.signal 4) = .error "assert_eq failed: merge of unequal payloads" :=
  ⟨merge_requires_equal_payloads.2.1 (.signal 8),
   merge_requires_equal_payloads.2.2 (.signal 8) (.signal 4) (by decide)⟩

/-- C7 counterexample: contrary to the claim that every bitwidth-carrying
node kind rejects bitwidth 0, the analysis happily makes a `Signal(0)`
payload for a `hole` whose bitwidth child is the number 0 — the positivity
assertion exists only in the `Var`/`Const` arm. -/
theorem hole_zero_bitwidth_accepted :
    makeData (fun _ => some (.num 0)) (.hole 0) = .ok (.signal 0) := rfl

/-- C7 amended: `var` and `const` nodes with bitwidth 0 or negative are
rejected by the analysis before any payload is produced, but `hole` nodes
carry no positivity check: a hole's numeric bitwidth is cast to `usize`
and accepted (bitwidth 0 yields `Signal(0)`). -/
theorem bitwidth_positivity_checks :
    (∀ (d : EId → Option Data) (nameId bwId : EId) (v : Int),
      d bwId = some (.num v) → v ≤ 0 →
      makeData d (.var nameId bwId) = .error "expect bitwidths to be positive") ∧
    (∀ (d : EId → Option Data) (valId bwId : EId) (v : Int),
      d bwId = some (.num v) → v ≤ 0 →
      makeData d (.const valId bwId) = .error "expect bitwidths to be positive") ∧
    (∀ (d : EId → Option Data) (bwId : EId) (v : Int),
      d bwId = some (.num v) →
      makeData d (.hole bwId) = .ok (.signal (intToUsize v))) := by
  refine ⟨?_, ?_, ?_⟩
  · intro d nameId bwId v h hv
    have : ¬ (v > 0) := by omega
    simp [makeData, h, this]
  · intro d valId bwId v h hv
    have : ¬ (v > 0) := by omega
    simp [makeData, h, this]
  · intro d bwId v h
    simp [makeData, h]

/-- Witness for C7's amended claim at concrete inputs. -/
theorem bitwidth_positivity_checks_witness :
    makeData (fun _ => some (.num 0)) (.var 0 1) = .error "expect bitwidths to be positive" ∧
    makeData (fun _ => some (.num (-2))) (.const 0 1) = .error "expect bitwidths to be positive" ∧
    makeData (fun _ => some (.num 3)) (.hole 1) = .ok (.signal (intToUsize 3)) :=
  ⟨bitwidth_positivity_checks.1 _ 0 1 0 rfl (by decide),
   bitwidth_positivity_checks.2.1 _ 0 1 (-2) rfl (by decide),
   bitwidth_positivity_checks.2.2 _ 1 3 rfl⟩

/-! ## The oracle-syntax translation (C4)

`racketMirror` and `collectVars` follow the spec's words for the fixed
structural mapping; the theorem shows `to_racket_helper` computes exactly
them on every term built from `Var`, `Const`, `UnOp(Not)` and
`BinOp(And|Or|Sub|Xor|Asr)`. -/

/-- The spec's fixed operator mapping for binary operators. -/
def binopName : Op → String
  | .and => "bvand"
  | .or => "bvor"
  | .sub => "bvsub"
  | .xor => "bvxor"
  | .asr => "bvashr"
  | .not => ""

/-- The spec's structural mirror into oracle syntax (junk outside the
supported fragment). -/
def racketMirror : Term → String
  | .var (.str n) _ => n
  | .const (.num v) (.num bw) => "(bv " ++ toString v ++ " " ++ toString bw ++ ")"
  | .binop (.op o) _ a b =>
    "(" ++ binopName o ++ " " ++ racketMirror a ++ " " ++ racketMirror b ++ ")"
  | .unop (.op .not) _ arg => "(bvnot " ++ racketMirror arg ++ ")"
  | _ => ""

/-- The spec's parameter map: record each variable with its bitwidth, in
depth-first left-to-right order. -/
def collectVars : Term → List (String × Nat) → List (String × Nat)
  | .var (.str n) (.num bw), m => insertVar m n bw.toNat
  | .binop _ _ a b, m => collectVars b (collectVars a m)
  | .unop _ _ arg, m => collectVars arg m
  | _, m => m

/-- Terms built only from `Var`, `Const`, `UnOp(Not)` and
`BinOp(And|Or|Sub|Xor|Asr)` (the fragment of C4). -/
inductive OracleTerm : Term → Prop where
  | var (n : String) (bw : Int) (h : 0 ≤ bw) : OracleTerm (.var (.str n) (.num bw))
  | const (v bw : Int) : OracleTerm (.const (.num v) (.num bw))
  | unop (bw arg : Term) (harg : OracleTerm arg) : OracleTerm (.unop (.op .not) bw arg)
  | binop (o : Op) (bw a b : Term) (ho : o ≠ .not) (ha : OracleTerm a) (hb : OracleTerm b) :
      OracleTerm (.binop (.op o) bw a b)

lemma toRacketHelper_oracleTerm (t : Term) (ht : OracleTerm t) :
    ∀ m, toRacketHelper t m = .ok (some (racketMirror t), collectVars t m) := by
  induction ht with
  | var n bw h =>
    intro m
    simp [toRacketHelper, racketMirror, collectVars, h]
  | const v bw =>
    intro m
    simp [toRacketHelper, racketMirror, collectVars]
  | unop bw arg harg ih =>
    intro m
    simp [toRacketHelper, racketMirror, collectVars, ih m, bind, Except.bind]
  | binop o bw a b ho ha hb iha ihb =>
    intro m
    cases o with
    | not => exact absurd rfl ho
    | and => simp [toRacketHelper, racketMirror, collectVars, binopName, iha, ihb, bind, Except.bind]
    | or => simp [toRacketHelper, racketMirror, collectVars, binopName, iha, ihb, bind, Except.bind]
    | sub => simp [toRacketHelper, racketMirror, collectVars, binopName, iha, ihb, bind, Except.bind]
    | xor => simp [toRacketHelper, racketMirror, collectVars, binopName, iha, ihb, bind, Except.bind]
    | asr => simp [toRacketHelper, racketMirror, collectVars, binopName, iha, ihb, bind, Except.bind]

/-- The ceiling-average example term of the spec: `(binop sub 8 (binop or
8 (var x 8) (var y 8)) (binop asr 8 (binop xor 8 (var x 8) (var y 8))
(const 1 8)))`. -/
def ceilAvgTerm : Term :=
  .binop (.op .sub) (.num 8)
    (.binop (.op .or) (.num 8) (.var (.str "x") (.num 8)) (.var (.str "y") (.num 8)))
    (.binop (.op .asr) (.num 8)
      (.binop (.op .xor) (.num 8) (.var (.str "x") (.num 8)) (.var (.str "y") (.num 8)))
      (.const (.num 1) (.num 8)))

/-- C4: on every term built only from `Var`, `Const`, `UnOp(Not)` and
`BinOp(And|Or|Sub|Xor|Asr)`, `to_racket` is the exact structural mirror —
`Const(v, bw)` becomes `(bv v bw)`, `Var(n, bw)` becomes `n` and records
`n : bw` in the parameter map, operators map AND/OR/SUB/XOR/ASR/NOT to
bvand/bvor/bvsub/bvxor/bvashr/bvnot — and the ceiling-average example
translates exactly as the spec lists, with parameter map
`x : 8, y : 8`. -/
theorem to_racket_structural_mirror :
    (∀ t : Term, OracleTerm t → ∀ m,
      toRacketHelper t m = .ok (some (racketMirror t), collectVars t m)) ∧
    toRacket ceilAvgTerm =
      .ok (some "(bvsub (bvor x y) (bvashr (bvxor x y) (bv 1 8)))", [("x", 8), ("y", 8)]) :=
  ⟨toRacketHelper_oracleTerm, rfl⟩

/-- Witness for C4 at a one-variable term. -/
theorem to_racket_structural_mirror_witness :
    toRacketHelper (.var (.str "z") (.num 4)) [] = .ok (some "z", [("z", 4)]) :=
  to_racket_structural_mirror.1 _ (.var "z" 4 (by decide)) []

/-! ## Extraction (C3, C10)

Under the precondition that every eclass visited from the `?ast` root
contains exactly one enode, the reachable part of the e-graph denotes a
tree (`Tmpl`); `holeFillSpec` is the spec's description of the walk, to be
compared with the embedded `extract_ast_helper`. -/

/-- Template trees: the node shapes `extract_ast_helper` accepts. -/
inductive Tmpl where
  | op (o : Op)
  | num (v : Int)
  | hole (bw : Tmpl)
  | unop (opT bwT argT : Tmpl)
  | binop (opT bwT aT bT : Tmpl)

/-- Height of a template tree. -/
def tmplHeight : Tmpl → Nat
  | .op _ => 1
  | .num _ => 1
  | .hole bw => tmplHeight bw + 1
  | .unop a b c => max (max (tmplHeight a) (tmplHeight b)) (tmplHeight c) + 1
  | .binop a b c d =>
    max (max (max (tmplHeight a) (tmplHeight b)) (tmplHeight c)) (tmplHeight d) + 1

/-- Number of `Hole` nodes, in depth-first left-to-right order. -/
def holeCount : Tmpl → Nat
  | .op _ => 0
  | .num _ => 0
  | .hole bw => holeCount bw + 1
  | .unop a b c => holeCount a + holeCount b + holeCount c
  | .binop a b c d => holeCount a + holeCount b + holeCount c + holeCount d

/-- The spec's description of extraction: walk the template depth-first
left-to-right; at each hole consume the next index `i` and emit
`Var("var" ++ i, bw)`; copy every other node structurally.  `none` when
the index list runs out at a hole. -/
def holeFillSpec : Tmpl → List Nat → Option (Term × List Nat)
  | .op o, args => some (.op o, args)
  | .num v, args => some (.num v, args)
  | .hole bw, args =>
    match holeFillSpec bw args with
    | none => none
    | some (tbw, args1) =>
      match args1 with
      | [] => none
      | idx :: rest => some (.var (.str ("var" ++ toString idx)) tbw, rest)
  | .unop t1 t2 t3, args =>
    match holeFillSpec t1 args with
    | none => none
    | some (r1, a1) =>
      match holeFillSpec t2 a1 with
      | none => none
      | some (r2, a2) =>
        match holeFillSpec t3 a2 with
        | none => none
        | some (r3, a3) => some (.unop r1 r2 r3, a3)
  | .binop t1 t2 t3 t4, args =>
    match holeFillSpec t1 args with
    | none => none
    | some (r1, a1) =>
      match holeFillSpec t2 a1 with
      | none => none
      | some (r2, a2) =>
        match holeFillSpec t3 a2 with
        | none => none
        | some (r3, a3) =>
          match holeFillSpec t4 a3 with
          | none => none
          | some (r4, a4) => some (.binop r1 r2 r3 r4, a4)

/-- Eclass `i` of `g` denotes the template tree `t`: every eclass visited
from `i` holds exactly one enode, of the corresponding shape. -/
inductive Denotes (g : EGraph) : EId → Tmpl → Prop where
  | op {i : EId} {o : Op} (h : nodesOf g i = some [.op o]) : Denotes g i (.op o)
  | num {i : EId} {v : Int} (h : nodesOf g i = some [.num v]) : Denotes g i (.num v)
  | hole {i bwId : EId} {tb : Tmpl} (h : nodesOf g i = some [.hole bwId])
      (hbw : Denotes g bwId tb) : Denotes g i (.hole tb)
  | unop {i opId bwId argId : EId} {t1 t2 t3 : Tmpl}
      (h : nodesOf g i = some [.unop opId bwId argId])
      (h1 : Denotes g opId t1) (h2 : Denotes g bwId t2) (h3 : Denotes g argId t3) :
      Denotes g i (.unop t1 t2 t3)
  | binop {i opId bwId aId bId : EId} {t1 t2 t3 t4 : Tmpl}
      (h : nodesOf g i = some [.binop opId bwId aId bId])
      (h1 : Denotes g opId t1) (h2 : Denotes g bwId t2) (h3 : Denotes g aId t3)
      (h4 : Denotes g bId t4) :
      Denotes g i (.binop t1 t2 t3 t4)

lemma tmplHeight_pos (t : Tmpl) : 1 ≤ tmplHeight t := by
  cases t <;> simp [tmplHeight]

lemma extractAstHelper_eq_spec {g : EGraph} {t : Tmpl} {i : EId} (hd : Denotes g i t) :
    ∀ (fuel : Nat), tmplHeight t ≤ fuel → ∀ args : List Nat,
    extractAstHelper g fuel i args =
      (match holeFillSpec t args with
       | some r => .ok r
       | none => .error "assertion failed: !args.is_empty()") := by
  induction hd with
  | op h =>
    intro fuel hfuel args
    cases fuel with
    | zero => simp only [tmplHeight] at hfuel; omega
    | succ f => simp [extractAstHelper, h, holeFillSpec]
  | num h =>
    intro fuel hfuel args
    cases fuel with
    | zero => simp only [tmplHeight] at hfuel; omega
    | succ f => simp [extractAstHelper, h, holeFillSpec]
  | @hole i0 bwId tb h hbw ih =>
    intro fuel hfuel args
    cases fuel with
    | zero => simp only [tmplHeight] at hfuel; omega
    | succ f =>
      have ihf := ih f (by simp only [tmplHeight] at hfuel; omega) args
      rcases hs : holeFillSpec tb args with _ | ⟨tbw, args1⟩
      · simp [extractAstHelper, h, ihf, hs, bind, Except.bind, holeFillSpec]
      · cases args1 with
        | nil => simp [extractAstHelper, h, ihf, hs, bind, Except.bind, holeFillSpec]
        | cons idx rest =>
          simp [extractAstHelper, h, ihf, hs, bind, Except.bind, holeFillSpec]
  | @unop i0 opId bwId argId t1 t2 t3 h h1 h2 h3 ih1 ih2 ih3 =>
    intro fuel hfuel args
    cases fuel with
    | zero => simp only [tmplHeight] at hfuel; omega
    | succ f =>
      simp only [tmplHeight] at hfuel
      rcases hs1 : holeFillSpec t1 args with _ | ⟨r1, a1⟩
      · simp [extractAstHelper, h, ih1 f (by omega) args, hs1, bind, Except.bind, holeFillSpec]
      · rcases hs2 : holeFillSpec t2 a1 with _ | ⟨r2, a2⟩
        · simp [extractAstHelper, h, ih1 f (by omega) args, hs1, ih2 f (by omega) a1, hs2,
            bind, Except.bind, holeFillSpec]
        · rcases hs3 : holeFillSpec t3 a2 with _ | ⟨r3, a3⟩
          · simp [extractAstHelper, h, ih1 f (by omega) args, hs1, ih2 f (by omega) a1, hs2,
              ih3 f (by omega) a2, hs3, bind, Except.bind, holeFillSpec]
          · simp [extractAstHelper, h, ih1 f (by omega) args, hs1, ih2 f (by omega) a1, hs2,
              ih3 f (by omega) a2, hs3, bind, Except.bind, holeFillSpec]
  | @binop i0 opId bwId aId bId t1 t2 t3 t4 h h1 h2 h3 h4 ih1 ih2 ih3 ih4 =>
    intro fuel hfuel args
    cases fuel with
    | zero => simp only [tmplHeight] at hfuel; omega
    | succ f =>
      simp only [tmplHeight] at hfuel
      rcases hs1 : holeFillSpec t1 args with _ | ⟨r1, a1⟩
      · simp [extractAstHelper, h, ih1 f (by omega) args, hs1, bind, Except.bind, holeFillSpec]
      · rcases hs2 : holeFillSpec t2 a1 with _ | ⟨r2, a2⟩
        · simp [extractAstHelper, h, ih1 f (by omega) args, hs1, ih2 f (by omega) a1, hs2,
            bind, Except.bind, holeFillSpec]
        · rcases hs3 : holeFillSpec t3 a2 with _ | ⟨r3, a3⟩
          · simp [extractAstHelper, h, ih1 f (by omega) args, hs1, ih2 f (by omega) a1, hs2,
              ih3 f (by omega) a2, hs3, bind, Except.bind, holeFillSpec]
          · rcases hs4 : holeFillSpec t4 a3 with _ | ⟨r4, a4⟩
            · simp [extractAstHelper, h, ih1 f (by omega) args, hs1, ih2 f (by omega) a1,
                hs2, ih3 f (by omega) a2, hs3, ih4 f (by omega) a3, hs4, bind,
                Except.bind, holeFillSpec]
            · simp [extractAstHelper, h, ih1 f (by omega) args, hs1, ih2 f (by omega) a1,
                hs2, ih3 f (by omega) a2, hs3, ih4 f (by omega) a3, hs4, bind,
                Except.bind, holeFillSpec]

lemma holeFillSpec_total (t : Tmpl) : ∀ args : List Nat, holeCount t ≤ args.length →
    ∃ out : Term, holeFillSpec t args = some (out, args.drop (holeCount t)) := by
  induction t with
  | op o => intro args _; exact ⟨.op o, by simp [holeFillSpec, holeCount]⟩
  | num v => intro args _; exact ⟨.num v, by simp [holeFillSpec, holeCount]⟩
  | hole bw ih =>
    intro args hlen
    simp only [holeCount] at hlen ⊢
    obtain ⟨out1, h1⟩ := ih args (by omega)
    have hrest : holeCount bw < args.length := by omega
    have hne : args.drop (holeCount bw) ≠ [] := by
      intro hnil
      have := List.length_drop (holeCount bw) args
      rw [hnil] at this
      simp at this
      omega
    obtain ⟨idx, rest, hcons⟩ := List.exists_cons_of_ne_nil hne
    refine ⟨.var (.str ("var" ++ toString idx)) out1, ?_⟩
    simp only [holeFillSpec, h1, hcons]
    have : rest = args.drop (holeCount bw + 1) := by
      have htail : (args.drop (holeCount bw)).tail = args.drop (holeCount bw + 1) := by
        rw [List.tail_drop]
      rw [hcons] at htail
      simpa using htail
    rw [this]
  | unop t1 t2 t3 ih1 ih2 ih3 =>
    intro args hlen
    simp only [holeCount] at hlen ⊢
    obtain ⟨o1, h1⟩ := ih1 args (by omega)
    obtain ⟨o2, h2⟩ := ih2 (args.drop (holeCount t1)) (by rw [List.length_drop]; omega)
    obtain ⟨o3, h3⟩ := ih3 (args.drop (holeCount t1 + holeCount t2))
      (by rw [List.length_drop]; omega)
    rw [List.drop_drop] at h2 h3
    exact ⟨.unop o1 o2 o3, by simp only [holeFillSpec, h1, h2, h3]⟩
  | binop t1 t2 t3 t4 ih1 ih2 ih3 ih4 =>
    intro args hlen
    simp only [holeCount] at hlen ⊢
    obtain ⟨o1, h1⟩ := ih1 args (by omega)
    obtain ⟨o2, h2⟩ := ih2 (args.drop (holeCount t1)) (by rw [List.length_drop]; omega)
    obtain ⟨o3, h3⟩ := ih3 (args.drop (holeCount t1 + holeCount t2))
      (by rw [List.length_drop]; omega)
    obtain ⟨o4, h4⟩ := ih4 (args.drop (holeCount t1 + holeCount t2 + holeCount t3))
      (by rw [List.length_drop]; omega)
    rw [List.drop_drop] at h2 h3 h4
    exact ⟨.binop o1 o2 o3 o4, by simp only [holeFillSpec, h1, h2, h3, h4]⟩

lemma holeFillSpec_overflow (t : Tmpl) : ∀ args : List Nat, args.length < holeCount t →
    holeFillSpec t args = none := by
  induction t with
  | op o => intro args h; simp [holeCount] at h
  | num v => intro args h; simp [holeCount] at h
  | hole bw ih =>
    intro args hlen
    simp only [holeCount] at hlen
    by_cases hc : args.length < holeCount bw
    · simp [holeFillSpec, ih args hc]
    · obtain ⟨out1, h1⟩ := holeFillSpec_total bw args (by omega)
      have hempty : args.drop (holeCount bw) = [] := by
        apply List.eq_nil_of_length_eq_zero
        rw [List.length_drop]
        omega
      simp [holeFillSpec, h1, hempty]
  | unop t1 t2 t3 ih1 ih2 ih3 =>
    intro args hlen
    simp only [holeCount] at hlen
    by_cases hc1 : args.length < holeCount t1
    · simp only [holeFillSpec, ih1 args hc1]
    · obtain ⟨o1, h1⟩ := holeFillSpec_total t1 args (by omega)
      by_cases hc2 : (args.drop (holeCount t1)).length < holeCount t2
      · simp only [holeFillSpec, h1, ih2 _ hc2]
      · obtain ⟨o2, h2⟩ := holeFillSpec_total t2 (args.drop (holeCount t1)) (by omega)
        rw [List.drop_drop] at h2
        have hc3 : (args.drop (holeCount t1 + holeCount t2)).length < holeCount t3 := by
          rw [List.length_drop] at hc2 ⊢
          omega
        simp only [holeFillSpec, h1, h2, ih3 _ hc3]
  | binop t1 t2 t3 t4 ih1 ih2 ih3 ih4 =>
    intro args hlen
    simp only [holeCount] at hlen
    by_cases hc1 : args.length < holeCount t1
    · simp only [holeFillSpec, ih1 args hc1]
    · obtain ⟨o1, h1⟩ := holeFillSpec_total t1 args (by omega)
      by_cases hc2 : (args.drop (holeCount t1)).length < holeCount t2
      · simp only [holeFillSpec, h1, ih2 _ hc2]
      · obtain ⟨o2, h2⟩ := holeFillSpec_total t2 (args.drop (holeCount t1)) (by omega)
        rw [List.drop_drop] at h2
        by_cases hc3 : (args.drop (holeCount t1 + holeCount t2)).length < holeCount t3
        · simp only [holeFillSpec, h1, h2, ih3 _ hc3]
        · obtain ⟨o3, h3⟩ := holeFillSpec_total t3 (args.drop (holeCount t1 + holeCount t2))
            (by omega)
          rw [List.drop_drop] at h3
          have hc4 : (args.drop (holeCount t1 + holeCount t2 + holeCount t3)).length
              < holeCount t4 := by
            rw [List.length_drop] at hc2 hc3 ⊢
            omega
          simp only [holeFillSpec, h1, h2, h3, ih4 _ hc4]

/-- C3: when eclass `i` denotes template `t` (every visited eclass holds
exactly one enode) and the number of holes is at most the number of
indices, `extract_ast_helper` produces exactly the spec's depth-first
left-to-right walk: each hole consumes the next index `idx` and becomes
`Var("var" ++ idx, bw)`, every other node is copied structurally, and the
leftover index list is the input with one index dropped per hole. -/
theorem extract_ast_fills_holes (g : EGraph) (t : Tmpl) (i : EId) (hd : Denotes g i t)
    (fuel : Nat) (hfuel : tmplHeight t ≤ fuel) (args : List Nat)
    (hargs : holeCount t ≤ args.length) :
    ∃ out : Term, holeFillSpec t args = some (out, args.drop (holeCount t)) ∧
      extractAstHelper g fuel i args = .ok (out, args.drop (holeCount t)) := by
  obtain ⟨out, hout⟩ := holeFillSpec_total t args hargs
  refine ⟨out, hout, ?_⟩
  rw [extractAstHelper_eq_spec hd fuel hfuel args, hout]

/-- C10: when the template has more holes than there are indices, the
`!args.is_empty()` assertion fires at the first excess hole and extraction
aborts with exactly that failure; when the hole count is at most the index
count, that branch is unreachable and extraction is total. -/
theorem extract_ast_hole_overflow_aborts (g : EGraph) (t : Tmpl) (i : EId)
    (hd : Denotes g i t) (fuel : Nat) (hfuel : tmplHeight t ≤ fuel) (args : List Nat) :
    (args.length < holeCount t →
      extractAstHelper g fuel i args = .error "assertion failed: !args.is_empty()") ∧
    (holeCount t ≤ args.length → ∃ r, extractAstHelper g fuel i args = .ok r) := by
  constructor
  · intro hlt
    rw [extractAstHelper_eq_spec hd fuel hfuel args, holeFillSpec_overflow t args hlt]
  · intro hle
    obtain ⟨out, _, hex⟩ := extract_ast_fills_holes g t i hd fuel hfuel args hle
    exact ⟨_, hex⟩

/-- A small concrete e-graph: eclass 3 holds the template
`(binop and 8 (hole 8) (hole 8))` with both holes sharing eclass 2. -/
def demoGraph : EGraph :=
  [⟨[.op .and], .op .and⟩,
   ⟨[.num 8], .num 8⟩,
   ⟨[.hole 1], .signal 8⟩,
   ⟨[.binop 0 1 2 2], .signal 8⟩]

/-- The template tree eclass 3 of `demoGraph` denotes. -/
def demoTmpl : Tmpl :=
  .binop (.op .and) (.num 8) (.hole (.num 8)) (.hole (.num 8))

lemma demoDenotes : Denotes demoGraph 3 demoTmpl :=
  .binop rfl (.op rfl) (.num rfl) (.hole rfl (.num rfl)) (.hole rfl (.num rfl))

/-- Witness for C3: extracting the demo template with indices `[0, 1]`
succeeds and consumes both indices. -/
theorem extract_ast_fills_holes_witness :
    ∃ out : Term, holeFillSpec demoTmpl [0, 1] = some (out, ([0, 1] : List Nat).drop (holeCount demoTmpl)) ∧
      extractAstHelper demoGraph 3 3 [0, 1] = .ok (out, ([0, 1] : List Nat).drop (holeCount demoTmpl)) :=
  extract_ast_fills_holes demoGraph demoTmpl 3 demoDenotes 3 (by decide) [0, 1] (by decide)

/-- Witness for C10: with only one index for two holes, extraction aborts
with the non-empty-index-list assertion. -/
theorem extract_ast_hole_overflow_aborts_witness :
    extractAstHelper demoGraph 3 3 [0] = .error "assertion failed: !args.is_empty()" :=
  (extract_ast_hole_overflow_aborts demoGraph demoTmpl 3 demoDenotes 3 (by decide) [0]).1
    (by decide)

/-! ## Template enumeration (C5) -/

lemma findIsaAux_error (g : EGraph) (fuel : Nat) :
    ∀ l : List (EId × EClass),
    (∃ p ∈ l, instrSubsts p.2 ≠ [] ∧ ((instrSubsts p.2).length ≠ 1 ∨ p.2.nodes.length ≠ 1)) →
    ∃ e, findIsaAux g fuel l = .error e := by
  intro l
  induction l with
  | nil =>
    rintro ⟨p, hp, _⟩
    cases hp
  | cons hd tl ih =>
    rintro ⟨p, hp, hne, hbad⟩
    obtain ⟨i, c⟩ := hd
    rcases List.mem_cons.mp hp with heq | hmem
    · subst heq
      cases hsub : instrSubsts c with
      | nil => exact absurd hsub hne
      | cons s ss =>
        cases ss with
        | nil =>
          have hnodes : c.nodes.length ≠ 1 := by
            rcases hbad with hb | hb
            · rw [hsub] at hb
              simp at hb
            · exact hb
          obtain ⟨astId, cargsId⟩ := s
          exact ⟨"assertion failed: egraph[eclass].nodes.len() == 1",
            by simp [findIsaAux, hsub, hnodes]⟩
        | cons s2 ss2 =>
          exact ⟨"assertion failed: search_match.substs.len() == 1",
            by simp [findIsaAux, hsub]⟩
    · obtain ⟨e, he⟩ := ih ⟨p, hmem, hne, hbad⟩
      cases hsub : instrSubsts c with
      | nil => exact ⟨e, by simp [findIsaAux, hsub, he]⟩
      | cons s ss =>
        cases ss with
        | nil =>
          obtain ⟨astId, cargsId⟩ := s
          by_cases hn : c.nodes.length = 1
          · cases hex : extractAst g fuel astId cargsId with
            | error e2 =>
              exact ⟨e2, by simp [findIsaAux, hsub, hn, hex, bind, Except.bind]⟩
            | ok t =>
              exact ⟨e, by simp [findIsaAux, hsub, hn, hex, he, bind, Except.bind]⟩
          · exact ⟨"assertion failed: egraph[eclass].nodes.len() == 1",
              by simp [findIsaAux, hsub, hn]⟩
        | cons s2 ss2 =>
          exact ⟨"assertion failed: search_match.substs.len() == 1",
            by simp [findIsaAux, hsub]⟩

lemma findIsaAux_ok (g : EGraph) (fuel : Nat) :
    ∀ (l : List (EId × EClass)) (out : List (EId × Term)), findIsaAux g fuel l = .ok out →
    ∀ p ∈ l, instrSubsts p.2 ≠ [] → (instrSubsts p.2).length = 1 ∧ p.2.nodes.length = 1 := by
  intro l
  induction l with
  | nil =>
    intro out _ p hp
    cases hp
  | cons hd tl ih =>
    intro out hok p hp hne
    obtain ⟨i, c⟩ := hd
    cases hsub : instrSubsts c with
    | nil =>
      rcases List.mem_cons.mp hp with heq | hmem
      · subst heq
        exact absurd hsub hne
      · exact ih out (by simpa [findIsaAux, hsub] using hok) p hmem hne
    | cons s ss =>
      cases ss with
      | nil =>
        obtain ⟨astId, cargsId⟩ := s
        by_cases hn : c.nodes.length = 1
        · rcases List.mem_cons.mp hp with heq | hmem
          · subst heq
            refine ⟨?_, hn⟩
            show (instrSubsts c).length = 1
            rw [hsub]
            rfl
          · cases hex : extractAst g fuel astId cargsId with
            | error e2 => simp [findIsaAux, hsub, hn, hex, bind, Except.bind] at hok
            | ok t =>
              cases hrest : findIsaAux g fuel tl with
              | error e2 =>
                simp [findIsaAux, hsub, hn, hex, hrest, bind, Except.bind] at hok
              | ok rest => exact ih rest hrest p hmem hne
        · simp [findIsaAux, hsub, hn] at hok
      | cons s2 ss2 => simp [findIsaAux, hsub] at hok

lemma exists_enum_iff (g : EGraph) (P : EClass → Prop) :
    (∃ p ∈ g.enum, P p.2) ↔ ∃ c ∈ g, P c := by
  constructor
  · rintro ⟨⟨i, c⟩, hp, hP⟩
    refine ⟨c, ?_, hP⟩
    rw [List.mem_iff_getElem?]
    exact ⟨i, List.mk_mem_enum_iff_getElem?.mp hp⟩
  · rintro ⟨c, hc, hP⟩
    obtain ⟨i, hi⟩ := List.mem_iff_getElem?.mp hc
    exact ⟨(i, c), List.mk_mem_enum_iff_getElem?.mpr hi, hP⟩

/-- C5: `find_isa_instructions` asserts, for every eclass matched by
`(instr ?ast ?canonical-args)`, that the substitution is unique and that
the eclass holds exactly one enode; if either condition fails anywhere the
enumeration refuses (aborts) rather than extracting a representative, and
a successful run guarantees both conditions for every matched eclass. -/
theorem find_isa_refuses_ambiguity (g : EGraph) (fuel : Nat) :
    ((∃ c ∈ g, instrSubsts c ≠ [] ∧ ((instrSubsts c).length ≠ 1 ∨ c.nodes.length ≠ 1)) →
      ∃ e, findIsaInstructions g fuel = .error e) ∧
    (∀ out, findIsaInstructions g fuel = .ok out →
      ∀ c ∈ g, instrSubsts c ≠ [] → (instrSubsts c).length = 1 ∧ c.nodes.length = 1) := by
  constructor
  · intro hbad
    refine findIsaAux_error g fuel g.enum ?_
    rw [exists_enum_iff g (fun c => instrSubsts c ≠ [] ∧
      ((instrSubsts c).length ≠ 1 ∨ c.nodes.length ≠ 1))]
    exact hbad
  · intro out hok c hc hne
    obtain ⟨i, hi⟩ := List.mem_iff_getElem?.mp hc
    exact findIsaAux_ok g fuel g.enum out hok (i, c)
      (List.mk_mem_enum_iff_getElem?.mpr hi) hne

/-- An e-graph in which two distinct instructions have been unified into
eclass 4: the pattern match there has two substitutions. -/
def ambiguousGraph : EGraph :=
  [⟨[.num 8], .num 8⟩,
   ⟨[.hole 0], .signal 8⟩,
   ⟨[.canonicalArgs [0]], .empty⟩,
   ⟨[.unop 5 0 1], .signal 8⟩,
   ⟨[.instr 1 2, .instr 3 2], .instr 8⟩,
   ⟨[.op .not], .op .not⟩]

/-- Witness for C5: on `ambiguousGraph` (two `Instr` enodes in one
eclass) the enumeration refuses, and the empty e-graph enumerates
successfully with nothing to check. -/
theorem find_isa_refuses_ambiguity_witness :
    (∃ e, findIsaInstructions ambiguousGraph 4 = .error e) ∧
    ((instrSubsts ⟨[.instr 1 2, .instr 3 2], .instr 8⟩).length = 1 ∧
        (⟨[.instr 1 2, .instr 3 2], .instr 8⟩ : EClass).nodes.length = 1 →
      False) :=
  ⟨(find_isa_refuses_ambiguity ambiguousGraph 4).1
      ⟨⟨[.instr 1 2, .instr 3 2], .instr 8⟩, by decide, by decide, by decide⟩,
   fun h => by
      have h2 := h.1
      simp [instrSubsts] at h2⟩

/-! ## Oracle driver failure behaviour (C6) -/

/-- C6 counterexample: with two candidate eclasses whose first oracle call
fails to spawn, the driver does not report `reject` and continue — the
panic aborts the whole parallel collection, so the sibling's verdict is
lost as well. -/
theorem oracle_transport_failure_not_reject :
    exploreNew [0, 1] (fun _ => some "expr")
      (fun i => if i = 0 then .spawnFailed else .exited true)
      = .error "Failed to spawn process" ∧
    ¬ exploreNew [0, 1] (fun _ => some "expr")
      (fun i => if i = 0 then .spawnFailed else .exited true)
      = .ok [(0, false), (1, true)] := by
  refine ⟨rfl, ?_⟩
  intro h
  exact Except.noConfusion (Eq.trans (Eq.symm rfl) h)

/-- C6 amended: a transport failure (spawn failure, broken pipe, failed
wait) makes `call_racket` panic, which aborts the whole validation run —
it is not reported as a `reject` for that candidate and it does poison
sibling candidates; only a completed oracle run produces a verdict, which
is the process's success status. -/
theorem oracle_transport_failure_panics :
    callRacket .spawnFailed = .error "Failed to spawn process" ∧
    callRacket .writeFailed = .error "unwrap: write_all failed" ∧
    callRacket .waitFailed = .error "unwrap: wait_with_output failed" ∧
    (∀ s, callRacket (.exited s) = .ok s) ∧
    (∀ (ids : List EId) (exprOf : EId → Option String) (oracle : EId → OracleOutcome),
      (∃ i ∈ ids, (exprOf i).isSome ∧ ∃ e, callRacket (oracle i) = .error e) →
      ∃ e, exploreNew ids exprOf oracle = .error e) := by
  refine ⟨rfl, rfl, rfl, fun s => rfl, ?_⟩
  intro ids exprOf oracle
  induction ids with
  | nil =>
    rintro ⟨i, hi, _⟩
    cases hi
  | cons hd tl ih =>
    rintro ⟨i, hi, hsome, e, he⟩
    rcases List.mem_cons.mp hi with heq | hmem
    · subst heq
      rcases hx : exprOf i with _ | s
      · rw [hx] at hsome
        simp at hsome
      · exact ⟨e, by simp [exploreNew, hx, he, Except.map]⟩
    · rcases hx : exprOf hd with _ | s
      · obtain ⟨e2, he2⟩ := ih ⟨i, hmem, hsome, e, he⟩
        exact ⟨e2, by simp [exploreNew, hx, he2]⟩
      · cases hcall : callRacket (oracle hd) with
        | error e2 =>
          exact ⟨e2, by simp [exploreNew, hx, hcall, Except.map]⟩
        | ok b =>
          obtain ⟨e2, he2⟩ := ih ⟨i, hmem, hsome, e, he⟩
          exact ⟨e2, by simp [exploreNew, hx, hcall, he2, Except.map]⟩

/-- Witness for C6's amended claim: a single candidate with a spawn
failure aborts the exploration. -/
theorem oracle_transport_failure_panics_witness :
    ∃ e, exploreNew [5] (fun _ => some "x") (fun _ => .spawnFailed) = .error e :=
  oracle_transport_failure_panics.2.2.2.2 [5] (fun _ => some "x") (fun _ => .spawnFailed)
    ⟨5, by simp, rfl, "Failed to spawn process", rfl⟩

/-! ## Containment (C8)

The worklist loop is proved equivalent to reachability by following enode
child edges.  The induction carries the loop invariants: the worklist and
the visited set are disjoint and duplicate-free, everything queued or
visited is reachable from the root and in range, visited classes are
fully expanded, and the fuel dominates the number of classes left to
visit. -/

lemma bfsAux_reachability (g : EGraph) (instrId root : EId) (hwf : WF g) :
    ∀ (fuel : Nat) (worklist visited : List EId),
    (∀ w ∈ worklist, w < g.length) →
    (∀ v ∈ visited, v < g.length) →
    worklist.Nodup →
    visited.Nodup →
    (∀ w ∈ worklist, w ∉ visited) →
    (∀ w ∈ worklist, Reach g root w) →
    (∀ v ∈ visited, Reach g root v) →
    (∀ v ∈ visited, v ≠ instrId) →
    (∀ v ∈ visited, ∀ c ∈ classChildren g v, c ∈ visited ∨ c ∈ worklist) →
    (root ∈ visited ∨ root ∈ worklist) →
    g.length + 1 ≤ fuel + visited.length →
    ∃ b, bfsAux g instrId fuel worklist visited = .ok b ∧
      (b = true ↔ Reach g root instrId) := by
  intro fuel
  induction fuel with
  | zero =>
    intro worklist visited hwl hvl hwn hvn hdisj hwr hvr hvni hclosed hroot hfuel
    exfalso
    have hsub : visited.toFinset ⊆ Finset.range g.length := by
      intro x hx
      rw [Finset.mem_range]
      exact hvl x (List.mem_toFinset.mp hx)
    have hcard : visited.toFinset.card ≤ g.length := by
      calc visited.toFinset.card ≤ (Finset.range g.length).card := Finset.card_le_card hsub
        _ = g.length := Finset.card_range _
    rw [List.toFinset_card_of_nodup hvn] at hcard
    omega
  | succ f ih =>
    intro worklist visited hwl hvl hwn hvn hdisj hwr hvr hvni hclosed hroot hfuel
    cases worklist with
    | nil =>
      refine ⟨false, by simp [bfsAux], ?_⟩
      simp only [Bool.false_eq_true, false_iff]
      intro hreach
      have hin : ∀ x, Reach g root x → x ∈ visited := by
        intro x hx
        induction hx with
        | refl =>
          rcases hroot with h | h
          · exact h
          · cases h
        | step hy hc ihy =>
          rcases hclosed _ ihy _ hc with h | h
          · exact h
          · cases h
      exact hvni instrId (hin instrId hreach) rfl
    | cons t rest =>
      have htmem : t ∈ t :: rest := List.mem_cons_self t rest
      have htnv : t ∉ visited := hdisj t htmem
      by_cases hinstr : t = instrId
      · subst hinstr
        exact ⟨true, by simp [bfsAux, htnv], by simp [hwr _ htmem]⟩
      · have htlt : t < g.length := hwl t htmem
        have hget : g.get? t = some (g.get ⟨t, htlt⟩) := List.get?_eq_get htlt
        have hnodesOf : nodesOf g t = some (g.get ⟨t, htlt⟩).nodes := by
          unfold nodesOf
          rw [hget]
          rfl
        have hcct : classChildren g t = (g.get ⟨t, htlt⟩).nodes.flatMap enodeChildren := by
          unfold classChildren
          rw [hnodesOf]
        set kids := (((g.get ⟨t, htlt⟩).nodes.flatMap enodeChildren).filter
          (fun x => x ∉ t :: visited ∧ x ∉ rest)).dedup with hkids
        have hkidsmem : ∀ x, x ∈ kids → x ∈ classChildren g t ∧ x ∉ t :: visited ∧ x ∉ rest := by
          intro x hx
          rw [hkids, List.mem_dedup, List.mem_filter] at hx
          refine ⟨?_, by simpa using hx.2⟩
          rw [hcct]
          exact hx.1
        have hchild : ∀ c ∈ classChildren g t, c < g.length := hwf t htlt
        have hstep : bfsAux g instrId (f + 1) (t :: rest) visited
            = bfsAux g instrId f (rest ++ kids) (t :: visited) := by
          simp only [bfsAux, if_neg htnv, if_neg hinstr, hnodesOf]
        obtain ⟨b, hb, hiff⟩ := ih (rest ++ kids) (t :: visited)
          (by intro w hw
              rcases List.mem_append.mp hw with h | h
              · exact hwl w (List.mem_cons_of_mem t h)
              · exact hchild w (hkidsmem w h).1)
          (by intro v hv
              rcases List.mem_cons.mp hv with rfl | h
              · exact htlt
              · exact hvl v h)
          (by rw [List.nodup_append]
              refine ⟨(List.nodup_cons.mp hwn).2, List.nodup_dedup _, ?_⟩
              intro a ha hak
              exact (hkidsmem a hak).2.2 ha)
          (List.nodup_cons.mpr ⟨htnv, hvn⟩)
          (by intro w hw
              rcases List.mem_append.mp hw with h | h
              · intro hmem
                rcases List.mem_cons.mp hmem with rfl | h2
                · exact (List.nodup_cons.mp hwn).1 h
                · exact hdisj w (List.mem_cons_of_mem t h) h2
              · exact (hkidsmem w h).2.1)
          (by intro w hw
              rcases List.mem_append.mp hw with h | h
              · exact hwr w (List.mem_cons_of_mem t h)
              · exact Reach.step (hwr t htmem) (hkidsmem w h).1)
          (by intro v hv
              rcases List.mem_cons.mp hv with rfl | h
              · exact hwr _ htmem
              · exact hvr v h)
          (by intro v hv
              rcases List.mem_cons.mp hv with rfl | h
              · exact hinstr
              · exact hvni v h)
          (by intro v hv c hc
              rcases List.mem_cons.mp hv with rfl | h
              · by_cases h1 : c ∈ v :: visited
                · exact Or.inl h1
                · by_cases h2 : c ∈ rest
                  · exact Or.inr (List.mem_append.mpr (Or.inl h2))
                  · refine Or.inr (List.mem_append.mpr (Or.inr ?_))
                    rw [hkids, List.mem_dedup, List.mem_filter]
                    rw [hcct] at hc
                    exact ⟨hc, by simp [h1, h2]⟩
              · rcases hclosed v h c hc with h2 | h2
                · exact Or.inl (List.mem_cons_of_mem t h2)
                · rcases List.mem_cons.mp h2 with rfl | h3
                  · exact Or.inl (List.mem_cons_self c visited)
                  · exact Or.inr (List.mem_append.mpr (Or.inl h3)))
          (by rcases hroot with h | h
              · exact Or.inl (List.mem_cons_of_mem t h)
              · rcases List.mem_cons.mp h with rfl | h2
                · exact Or.inl (List.mem_cons_self root visited)
                · exact Or.inr (List.mem_append.mpr (Or.inl h2)))
          (by simp only [List.length_cons]; omega)
        exact ⟨b, by rw [hstep]; exact hb, hiff⟩

/-- C8: on a well-formed e-graph (every child id in range) with an
in-range program root, `instr_appears_in_program` returns `true` exactly
when the instruction eclass is reachable from the root by following enode
child edges (every child id of every enode of each visited class); in
particular it returns `true` whenever the instruction id equals the root
id. -/
theorem instr_appears_iff_reachable (g : EGraph) (instrId root : EId) (hwf : WF g)
    (hroot : root < g.length) :
    (instrAppearsInProgram g instrId root = .ok true ↔ Reach g root instrId) ∧
    instrAppearsInProgram g root root = .ok true := by
  constructor
  · obtain ⟨b, hb, hiff⟩ := bfsAux_reachability g instrId root hwf (g.length + 1) [root] []
      (by intro w hw
          rw [List.mem_singleton.mp hw]
          exact hroot)
      (by intro v hv; cases hv)
      (by simp)
      (by simp)
      (by intro w hw hmem; cases hmem)
      (by intro w hw
          rw [List.mem_singleton.mp hw]
          exact Reach.refl)
      (by intro v hv; cases hv)
      (by intro v hv; cases hv)
      (by intro v hv; cases hv)
      (Or.inr (List.mem_singleton.mpr rfl))
      (by simp)
    show bfsAux g instrId (g.length + 1) [root] [] = .ok true ↔ Reach g root instrId
    rw [hb]
    constructor
    · intro h
      exact hiff.mp (Except.ok.inj h)
    · intro hr
      rw [hiff.mpr hr]
  · show bfsAux g root (g.length + 1) [root] [] = .ok true
    simp [bfsAux]

/-- Witness for C8 on `demoGraph`: eclass 1 (the bitwidth leaf) is
reachable from the template root 3, and the loop reports it. -/
theorem instr_appears_iff_reachable_witness :
    instrAppearsInProgram demoGraph 1 3 = .ok true ∧ Reach demoGraph 3 1 := by
  have h := instr_appears_iff_reachable demoGraph 1 3 (by unfold WF; decide) (by decide)
  have hr : Reach demoGraph 3 1 := Reach.step Reach.refl (by decide)
  exact ⟨h.1.mpr hr, hr⟩

end Lakeroad
